import Mathlib

/-!
Verification of the ohtc-dashboard spreadsheet ingestion / export core.

This file is a shallow embedding, in Lean 4, of the parts of `app_v2.py`
that the specification's testable properties talk about:

* the field parsers `safe_float`, `safe_int`, `safe_datetime`
  (src/app_v2.py, `load_excel_data`, lines 228-285);
* the hierarchy classifier of task rows (lines 305-376);
* the status inferencer `calc_status` (lines 409-427);
* the per-column percentage normalization (lines 399-407);
* the milestone (system-schedule) streaming parse (lines 453-496);
* the workbook writer's per-cell update logic in `export_updated_excel`
  (lines 1246-1354);
* the edit-commit validation loop and the undo/redo history
  (lines 2072-2099 and 2439-2516).

Python strings are modelled as Lean `String` (lists of unicode code points);
Python `str.strip` is modelled as stripping the ASCII whitespace characters
(space, tab, newline, carriage return, vertical tab, form feed), which is
what `strip` does on all inputs appearing in the claims.  Dates are day
ordinals (`ℤ`), floats are `ℚ`, absent cells (`None`/`NaN`) are explicit
constructors.  The pandas date parser `pd.to_datetime` is a library call,
not repository code, so the functions that use it take the parser as an
explicit argument.

The file is organized as definitions first (the embedding), then theorems.
-/

namespace Ohtc

/-! ## Raw cells and Python string primitives -/

/-- A raw spreadsheet cell as seen by the ingestion code: absent
(`None`/`NaN`, i.e. `pd.isna` is true), a number, or a text value. -/
inductive RawCell where
  | absent
  | num (q : ℚ)
  | str (s : String)
deriving DecidableEq

/-- The whitespace characters removed by Python `str.strip()` (ASCII part). -/
def isPyWs (c : Char) : Bool :=
  c = ' ' || c = '\t' || c = '\n' || c = '\r' || c.toNat = 11 || c.toNat = 12

/-- Strip leading and trailing whitespace from a character list. -/
def stripChars (cs : List Char) : List Char :=
  ((cs.dropWhile isPyWs).reverse.dropWhile isPyWs).reverse

/-- Python `str.strip()`. -/
def pyStrip (s : String) : String := String.mk (stripChars s.data)

/-- Python `str.replace(c, '', 1)` for a single character: remove the first
occurrence of `c`, if any. -/
def removeOnce (c : Char) : List Char → List Char
  | [] => []
  | d :: ds => if d = c then ds else d :: removeOnce c ds

/-- Python `str.isdigit()` restricted to ASCII text (the code has already
rejected any character above 127 when this is called): nonempty and all
decimal digits. -/
def isDigits (cs : List Char) : Bool := !cs.isEmpty && cs.all (fun c => c.isDigit)

/-- `True` iff some character has a code point above 127
(`any(ord(c) > 127 for c in val_clean)` in the source). -/
def hasNonAscii (cs : List Char) : Bool := cs.any (fun c => 127 < c.toNat)

/-- Python `needle in hay` for strings: `listStartsWith hay needle` is the
prefix test used by the substring scan below. -/
def listStartsWith : List Char → List Char → Bool
  | _, [] => true
  | [], _ :: _ => false
  | h :: hs, n :: ns => h = n && listStartsWith hs ns

/-- Python `needle in hay` (substring containment) on character lists. -/
def containsSub : List Char → List Char → Bool
  | [], needle => needle.isEmpty
  | h :: hs, needle => listStartsWith (h :: hs) needle || containsSub hs needle

/-- Python `needle in hay` on strings. -/
def substrB (needle hay : String) : Bool := containsSub hay.data needle.data

/-! ## Numeric field parsers (src/app_v2.py lines 228-253) -/

/-- Numeric value of a digit string. -/
def digitsVal (cs : List Char) : ℕ := cs.foldl (fun a c => 10 * a + (c.toNat - 48)) 0

/-- Python `float(...)` on an unsigned literal: digit characters with at
most one decimal point and at least one digit.  (Exponents, `inf` and `nan`
contain letters, which the callers' ASCII-digit pre-check has already
rejected, so they never reach this parser.) -/
def parseUnsignedFloat (cs : List Char) : Option ℚ :=
  let ip := cs.takeWhile (fun c => c ≠ '.')
  match cs.dropWhile (fun c => c ≠ '.') with
  | [] => if isDigits ip then some ((digitsVal ip : ℚ)) else none
  | _ :: fp =>
    if ip.all (fun c => c.isDigit) && fp.all (fun c => c.isDigit)
        && !(ip.isEmpty && fp.isEmpty) then
      some ((digitsVal ip : ℚ) + (digitsVal fp : ℚ) / ((10 : ℚ) ^ fp.length))
    else none

/-- A signed Python float literal: optional single leading sign, then an
unsigned literal. -/
def signedFloatParse (cs : List Char) : Option ℚ :=
  match cs with
  | '+' :: rest => parseUnsignedFloat rest
  | '-' :: rest => (parseUnsignedFloat rest).map (fun q => -q)
  | _ => parseUnsignedFloat cs

/-- Python `float(s)` for a string: strip surrounding whitespace, then parse
a signed literal; `none` models a raised `ValueError`. -/
def pyFloatOfString (s : String) : Option ℚ := signedFloatParse (stripChars s.data)

/-- "Plain ASCII numeral, optionally with one leading sign and one decimal
point" — the spec's wording for the text inputs the parsers accept. -/
def isPlainNumeral (cs : List Char) : Bool := (signedFloatParse cs).isSome

/-- The pre-check `safe_float` applies to a stripped text value:
after removing one `.`, one `-` and one `+`, the rest must be digits. -/
def floatCheckOk (cs : List Char) : Bool :=
  isDigits (removeOnce '+' (removeOnce '-' (removeOnce '.' cs)))

/-- The pre-check `safe_int` applies (no decimal point allowed). -/
def intCheckOk (cs : List Char) : Bool :=
  isDigits (removeOnce '+' (removeOnce '-' cs))

/-- `safe_float` from `load_excel_data` (src/app_v2.py lines 228-241):
absent values give the default; text is rejected (default) when it contains
a non-ASCII character or fails the digit check; otherwise `float(val)` is
attempted and a parse failure is caught, giving the default. -/
def safe_float (val : RawCell) (dflt : ℚ) : ℚ :=
  match val with
  | .absent => dflt
  | .num q => q
  | .str s =>
    let c := stripChars s.data
    if hasNonAscii c then dflt
    else if !floatCheckOk c then dflt
    else
      match pyFloatOfString s with
      | some q => q
      | none => dflt

/-- Python `int(...)` applied to a float: truncation toward zero. -/
def truncToward0 (q : ℚ) : ℤ := if 0 ≤ q then ⌊q⌋ else ⌈q⌉

/-- `safe_int` from `load_excel_data` (src/app_v2.py lines 243-253):
like `safe_float` but the digit check does not allow a decimal point, and
the parsed value is truncated via `int(float(val))`. -/
def safe_int (val : RawCell) (dflt : ℤ) : ℤ :=
  match val with
  | .absent => dflt
  | .num q => truncToward0 q
  | .str s =>
    let c := stripChars s.data
    if hasNonAscii c then dflt
    else if !intCheckOk c then dflt
    else
      match pyFloatOfString s with
      | some q => truncToward0 q
      | none => dflt

/-! ## Date parser (src/app_v2.py lines 255-285) -/

/-- Helper for `removeParens`: drop characters up to and including the first
`)`; `none` when no `)` remains. -/
def dropThroughClose : List Char → Option (List Char)
  | [] => none
  | c :: cs => if c = ')' then some cs else dropThroughClose cs

/-- Fuelled scanner behind `removeParens`; the fuel is always at least the
list length at the call sites, so the fuel-0 branch is unreachable (the jump
past a deleted span only shortens the list). -/
def removeParensF : ℕ → List Char → List Char
  | 0, _ => []
  | _ + 1, [] => []
  | f + 1, c :: cs =>
    if c = '(' then
      match dropThroughClose cs with
      | some rest => removeParensF f rest
      | none => c :: cs
    else c :: removeParensF f cs

/-- `re.sub(r'\([^)]*\)', '', s)`: repeatedly delete the span from a `(` to
the first following `)`; a `(` with no later `)` is left in place (the regex
cannot match at or after it, since every later match needs a closing `)`). -/
def removeParens (cs : List Char) : List Char := removeParensF cs.length cs

/-- The cleaning applied by `safe_datetime` to a text cell
(src/app_v2.py lines 262-274): strip, remove parenthesized spans, strip. -/
def cleanDateText (s : String) : String :=
  String.mk (stripChars (removeParens (stripChars s.data)))

/-- The header-label strings that `safe_datetime` maps to `None`. -/
def dateHeaderLabels : List String :=
  ["計劃開始日期", "計劃完成日期", "實際開始日期", "實際完成日期"]

/-- `safe_datetime` from `load_excel_data` (src/app_v2.py lines 255-285).
The underlying `pd.to_datetime(·, errors='coerce')` is a pandas call, not
repository code, so it is passed in: `parseS` parses a cleaned text value
and `parseQ` a numeric one, both returning `none` for `NaT`.  Dates are day
ordinals. -/
def safe_datetime (parseS : String → Option ℤ) (parseQ : ℚ → Option ℤ)
    (val : RawCell) : Option ℤ :=
  match val with
  | .absent => none
  | .num q => parseQ q
  | .str s =>
    let c := cleanDateText s
    if c = "" ∨ c ∈ dateHeaderLabels then none
    else parseS c

/-! ## Hierarchy classifier (src/app_v2.py lines 305-376) -/

/-- The marker vocabularies of the classifier (lines 317-325). -/
def mainMarkers : List String := ["主項目", "1", "大項", "大項目", "parent", "Parent"]

/-- Markers that mean "sub item". -/
def subMarkers : List String := ["次項目", "2", "子項", "子項目", "child", "Child"]

/-- Markers that mean "sub-sub item". -/
def subSubMarkers : List String := ["次次項目", "3", "孫項", "孫項目"]

/-- Python `int(s)` on a string: optional surrounding whitespace, one
optional sign, then decimal digits; `none` models a raised `ValueError`. -/
def pyIntOfString (s : String) : Option ℤ :=
  match stripChars s.data with
  | '+' :: rest => if isDigits rest then some ((digitsVal rest : ℤ)) else none
  | '-' :: rest => if isDigits rest then some (-(digitsVal rest : ℤ)) else none
  | cs => if isDigits cs then some ((digitsVal cs : ℤ)) else none

/-- Lines 316-335: the `level` / `is_parent_by_marker` pair computed from
the stripped marker cell.  An unknown marker that parses as a positive
integer `n` yields level `n - 1` with the by-marker flag set iff `n = 1`;
anything else leaves the defaults `(0, false)`. -/
def markerLevel (marker : String) : ℕ × Bool :=
  if marker ∈ mainMarkers then (0, true)
  else if marker ∈ subMarkers then (1, false)
  else if marker ∈ subSubMarkers then (2, false)
  else
    match pyIntOfString marker with
    | some n => if 0 < n then ((n - 1).toNat, decide (n = 1)) else (0, false)
    | none => (0, false)

/-- A marker is valid when it is in one of the vocabularies or parses as a
positive integer — exactly the cases in which lines 316-335 set the level. -/
def validMarkerB (marker : String) : Bool :=
  marker ∈ mainMarkers || marker ∈ subMarkers || marker ∈ subSubMarkers ||
    (match pyIntOfString marker with
     | some n => decide (0 < n)
     | none => false)

/-- The level a valid marker implies. -/
def impliedLevel (marker : String) : ℕ := (markerLevel marker).1

/-- Whether the marker by itself flags the row as a main item. -/
def markerSaysMain (marker : String) : Bool := (markerLevel marker).2

/-- One hex digit, as `int(·, 16)` accepts. -/
def hexDigitVal (c : Char) : Option ℕ :=
  if c.isDigit then some (c.toNat - 48)
  else if 'A' ≤ c ∧ c ≤ 'F' then some (c.toNat - 55)
  else if 'a' ≤ c ∧ c ≤ 'f' then some (c.toNat - 87)
  else none

/-- `int(cc, 16)` on a two-character slice. -/
def hexByte (c1 c2 : Char) : Option ℕ :=
  match hexDigitVal c1, hexDigitVal c2 with
  | some a, some b => some (16 * a + b)
  | _, _ => none

/-- Lines 337-355: the background-color test.  The input is the string form
of `cell.fill.start_color.rgb` when a fill is present; the code requires at
least 6 characters, parses the last six as RGB hex pairs, and calls the row
"parent by color" when green dominates red and blue and exceeds 150.  Any
parse failure leaves the flag false. -/
def greenFill (rgb : Option String) : Bool :=
  match rgb with
  | none => false
  | some s =>
    let cs := s.data
    if 6 ≤ cs.length then
      match cs.drop (cs.length - 6) with
      | [a, b, c, d, e, f] =>
        match hexByte a b, hexByte c d, hexByte e f with
        | some r, some g, some bl => decide (r < g ∧ bl < g ∧ 150 < g)
        | _, _, _ => false
      | _ => false
    else false

/-- The inputs of the classifier for one task row: the raw name cell text
(`str(row[0])`), the marker cell (`row[1]`, `none` when `pd.isna`), the
owner cell (`row[2]`), the fill color string when one is attached to the
name cell, and whether the two plan-date cells are non-absent. -/
structure TaskRowInput where
  nameCell : String
  markerCell : Option String
  ownerCell : Option String
  fillRgb : Option String
  planStartPresent : Bool
  planEndPresent : Bool

/-- The classifier's output: the stored `level` and `is_parent` fields. -/
structure LevelResult where
  level : ℕ
  is_parent : Bool
deriving DecidableEq

/-- `str(row[0]).startswith(' ') or str(row[0]).startswith('\t')`. -/
def hasLeadingSpaceB (r : TaskRowInput) : Bool :=
  match r.nameCell.data with
  | c :: _ => c = ' ' || c = '\t'
  | [] => false

/-- `str(row[1]).strip() if pd.notna(row[1]) else ''`. -/
def markerOf (r : TaskRowInput) : String :=
  match r.markerCell with
  | some m => pyStrip m
  | none => ""

/-- Lines 305-369: level from the marker; `is_parent` from the chain
marker-says-main, then color, then indentation (which forces false), then
the no-owner-and-no-dates fallback. -/
def classifyRow (r : TaskRowInput) : LevelResult :=
  let owner := r.ownerCell.getD ""
  let ml := markerLevel (markerOf r)
  let byColor := greenFill r.fillRgb
  let hasDates := r.planStartPresent && r.planEndPresent
  let byLogic := (decide (owner = "" ∨ pyStrip owner = "")) && !hasDates
  ⟨ml.1,
    if ml.2 then true
    else if byColor then true
    else if hasLeadingSpaceB r then false
    else byLogic⟩

/-! ## Status inferencer (src/app_v2.py lines 409-427) -/

/-- `calc_status` from `load_excel_data`: a non-blank status cell is used
verbatim; otherwise `Done` when progress is at least 100, else `Delay` when
the plan-end date exists and is strictly before today, else `Going`.
`progress_pct` is `none` when the cell is `NaN` (the code substitutes 0);
dates are day ordinals and `today` is `datetime.now().date()`. -/
def calc_status (status : String) (progress_pct : Option ℚ) (plan_end : Option ℤ)
    (today : ℤ) : String :=
  if status ≠ "" ∧ pyStrip status ≠ "" then status
  else if 100 ≤ progress_pct.getD 0 then "Done"
  else
    match plan_end with
    | some e => if e < today then "Delay" else "Going"
    | none => "Going"

/-- The status rule as the spec words it (§4.3): non-blank cell verbatim;
else `Done` iff `progress_pct ≥ 100` (regardless of `plan_end`); else
`Delay` iff `plan_end` is present and strictly before today; else `Going`. -/
def statusSpec (status : String) (progress_pct : Option ℚ) (plan_end : Option ℤ)
    (today : ℤ) : String :=
  if pyStrip status ≠ "" then status
  else if 100 ≤ progress_pct.getD 0 then "Done"
  else if (match plan_end with | some e => decide (e < today) | none => false) then "Delay"
  else "Going"

/-! ## Percentage-column normalization (src/app_v2.py lines 399-407) -/

/-- Pandas `Series.max()` over the modelled column values (the guarded code
path only evaluates it on nonempty columns; the `[]` value is irrelevant). -/
def listMax : List ℚ → ℚ
  | [] => 0
  | x :: xs => xs.foldl max x

/-- Lines 399-407: if the column maximum is at most 1 and positive, the
whole column is multiplied by 100, otherwise it is left unchanged. -/
def normalizePct (xs : List ℚ) : List ℚ :=
  if xs = [] then xs
  else if listMax xs ≤ 1 ∧ 0 < listMax xs then xs.map (fun v => v * 100)
  else xs

/-! ## Milestone (system-schedule) ingestion (src/app_v2.py lines 453-496) -/

/-- One raw system-schedule row: the name cell, the target-date cell, the
completion cell (`row[2]`), and the value of the detected hierarchy column.
The target-date cell is carried but orthogonal to the verified claims. -/
structure MRow where
  nameCell : Option String
  targetCell : RawCell
  pctCell : RawCell
  hierCell : Option String

/-- One normalized milestone entry (the fields the claims are about; the
`target_date` field is the parse of `targetCell` and is left to the date
parser, which is irrelevant here). -/
structure MItem where
  area : String
  main_item : String
  item : String
  item_type : String
  hierarchy : String
  completion_pct : ℚ
deriving DecidableEq

/-- Lines 458-461: the per-row completion rescale —
`pct = safe_float(row[2])`, then `pct = pct * 100` when `pct ≤ 1`. -/
def milestonePct (c : RawCell) : ℚ :=
  let v := safe_float c 0
  if v ≤ 1 then v * 100 else v

/-- A row is skipped when its name cell is blank after stripping. -/
def mrowBlank (r : MRow) : Bool :=
  (match r.nameCell with
   | some s => pyStrip s
   | none => "") = ""

/-- Lines 453-496: process one row under the running
`(current_area, current_main)` state, returning the new state and the
materialized item (`none` for skipped blank rows). -/
def processMRow (st : String × String) (r : MRow) :
    (String × String) × Option MItem :=
  let item_name := match r.nameCell with
    | some s => pyStrip s
    | none => ""
  if item_name = "" then (st, none)
  else
    let pct := milestonePct r.pctCell
    let hval := match r.hierCell with
      | some s => pyStrip s
      | none => ""
    if substrB "區域" hval || substrB "區域" item_name then
      ((item_name, ""), some ⟨item_name, "", item_name, "area", hval, pct⟩)
    else if substrB "主項目" hval then
      ((st.1, item_name), some ⟨st.1, item_name, item_name, "main", hval, pct⟩)
    else if substrB "次項目" hval then
      (st, some ⟨st.1, st.2, item_name, "sub", hval, pct⟩)
    else if substrB "區域" item_name then
      ((item_name, ""), some ⟨item_name, "", item_name, "area", hval, pct⟩)
    else (st, some ⟨st.1, st.2, item_name, "sub", hval, pct⟩)

/-- The streaming fold over the sheet rows from a given state. -/
def processFrom (st : String × String) : List MRow → List MItem
  | [] => []
  | r :: rs =>
    match processMRow st r with
    | (st1, some it) => it :: processFrom st1 rs
    | (st1, none) => processFrom st1 rs

/-- The whole milestone parse: fold from the empty state. -/
def processMilestones (rows : List MRow) : List MItem :=
  processFrom ("", "") rows

/-! ## Workbook writer (src/app_v2.py lines 1246-1354) -/

/-- A worksheet cell value as openpyxl sees it: empty (`None`), text,
number, or date. -/
inductive CellV where
  | empty
  | str (s : String)
  | num (q : ℚ)
  | date (d : ℤ)
deriving DecidableEq

/-- `s.startswith('=')`: the first character is `=`. -/
def startsWithEq (s : String) : Bool :=
  match s.data with
  | c :: _ => c = '='
  | [] => false

/-- The writer's formula sniff:
`cell.value and isinstance(cell.value, str) and cell.value.startswith('=')`
(a string starting with `=` is nonempty, subsuming the truthiness test). -/
def isFormulaV : CellV → Bool
  | .str s => startsWithEq s
  | _ => false

/-- Lines 1249-1250: an external-link formula — formula text containing both
`[` and `]` — which the pre-pass blanks out on every sheet. -/
def isExternalV : CellV → Bool
  | .str s => startsWithEq s && substrB "[" s && substrB "]" s
  | _ => false

/-- The external-formula stripping pre-pass applied to a cell
(lines 1246-1254). -/
def stripExternalV (v : CellV) : CellV :=
  if isExternalV v then .empty else v

/-- The task fields written back by `export_updated_excel`. -/
structure XTask where
  task : String
  owner : String
  status : String
  coord_time : String
  coord_manpower : String
  coord_area : String
  coord_equipment : String
  notes : String
  progress_pct : ℚ
  target_pct : ℚ
  remaining_days : ℚ
  plan_days : ℚ
  actual_days : ℚ
  variance_days : ℚ
  plan_start : Option ℤ
  plan_end : Option ℤ
  actual_start : Option ℤ
  actual_end : Option ℤ

/-- `if not (cell.value and ... startswith('=')): cell.value = new`. -/
def writeGuard (old new : CellV) : CellV :=
  if isFormulaV old then old else new

/-- Lines 1306-1354: the value written to column `col` (1-based) of a task's
target row, given the cell's value `old` after the external-formula strip
pre-pass.  Columns 1, 3, 5, 6, 7, 11, 14 and 15 are formula-guarded;
column 8 and columns 16-20 are written unconditionally; the date columns
9, 10, 12 and 13 are written (unconditionally) only when the task has the
date; all other columns are untouched. -/
def exportTaskCell (t : XTask) (old : CellV) (col : ℕ) : CellV :=
  let o := stripExternalV old
  if col = 1 then writeGuard o (.str t.task)
  else if col = 3 then writeGuard o (.str t.owner)
  else if col = 5 then writeGuard o (.num t.progress_pct)
  else if col = 6 then writeGuard o (.num t.target_pct)
  else if col = 7 then writeGuard o (.num t.remaining_days)
  else if col = 8 then .str t.status
  else if col = 9 then
    match t.plan_start with
    | some d => .date d
    | none => o
  else if col = 10 then
    match t.plan_end with
    | some d => .date d
    | none => o
  else if col = 11 then writeGuard o (.num t.plan_days)
  else if col = 12 then
    match t.actual_start with
    | some d => .date d
    | none => o
  else if col = 13 then
    match t.actual_end with
    | some d => .date d
    | none => o
  else if col = 14 then writeGuard o (.num t.actual_days)
  else if col = 15 then writeGuard o (.num t.variance_days)
  else if col = 16 then .str t.coord_time
  else if col = 17 then .str t.coord_manpower
  else if col = 18 then .str t.coord_area
  else if col = 19 then .str t.coord_equipment
  else if col = 20 then .str t.notes
  else o

/-! ## Undo/redo edit history (src/app_v2.py lines 2072-2099, 2489-2516) -/

/-- The session history state: the snapshot list `edit_history`, the pointer
`history_index` (initially `-1`), and the current task table
`edited_all_tasks`.  The snapshot type is abstract. -/
structure HistState (α : Type) where
  hist : List α
  idx : ℤ
  cur : α
deriving DecidableEq

/-- Python list indexing `l[i]` (negative indices count from the end).  All
reachable accesses are in range; out-of-range reads fall back to `default`
(Python would raise, which no reachable state does). -/
def pyGet {α : Type} [Inhabited α] (l : List α) (i : ℤ) : α :=
  if 0 ≤ i then l.getD i.toNat default
  else l.getD ((l.length : ℤ) + i).toNat default

/-- The history depth limit (line 2499). -/
def histCap : ℕ := 20

/-- Lines 2498-2501: after the pre-edit push, keep only the last 20 entries
and reset the pointer to 19. -/
def capState {α : Type} (h1 : List α) (c : α) : HistState α :=
  if histCap < h1.length then
    ⟨h1.drop (h1.length - histCap), (histCap : ℤ) - 1, c⟩
  else ⟨h1, (h1.length : ℤ) - 1, c⟩

/-- Lines 2492-2501: if the history is empty or the current table differs
from the last stored snapshot, truncate the redo tail
(`edit_history[:history_index + 1]`), push the current table, and apply the
cap.  (`history_index` is `-1` only when the history is empty, so the
slice's clamp to `0` matches Python.)  Otherwise nothing happens. -/
def pushPre {α : Type} [DecidableEq α] [Inhabited α] (s : HistState α) : HistState α :=
  if s.hist.length = 0 ∨ s.cur ≠ pyGet s.hist (-1) then
    capState (s.hist.take (s.idx + 1).toNat ++ [s.cur]) s.cur
  else s

/-- A successful commit (lines 2489-2516): the pre-edit push, then the
edited table `v` becomes current, is appended — without any cap — and the
pointer moves to the new end. -/
def commit {α : Type} [DecidableEq α] [Inhabited α] (v : α) (s : HistState α) :
    HistState α :=
  ⟨(pushPre s).hist ++ [v], ((pushPre s).hist.length : ℤ), v⟩

/-- The undo button (lines 2084-2090): enabled when `history_index > 0`;
moves the pointer back and restores that snapshot. -/
def undo {α : Type} [Inhabited α] (s : HistState α) : HistState α :=
  if 0 < s.idx then ⟨s.hist, s.idx - 1, pyGet s.hist (s.idx - 1)⟩ else s

/-- The redo button (lines 2093-2099): enabled when the pointer is not at
the end; moves it forward and restores that snapshot. -/
def redo {α : Type} [Inhabited α] (s : HistState α) : HistState α :=
  if s.idx < (s.hist.length : ℤ) - 1 then ⟨s.hist, s.idx + 1, pyGet s.hist (s.idx + 1)⟩
  else s

/-- A sequence of successful commits. -/
def commitList {α : Type} [DecidableEq α] [Inhabited α] (vs : List α)
    (s : HistState α) : HistState α :=
  vs.foldl (fun t v => commit v t) s

/-- `n` consecutive undo clicks. -/
def undoN {α : Type} [Inhabited α] : ℕ → HistState α → HistState α
  | 0, s => s
  | n + 1, s => undoN n (undo s)

/-! ## Edit-commit validation (src/app_v2.py lines 2439-2520) -/

/-- One row of the edited task table as the validation loop reads it:
required text fields (absent when `pd.isna`), the four schedule dates, and
the completion percentage. -/
structure EditedRow where
  task : Option String
  owner : Option String
  status : Option String
  plan_start : Option ℤ
  plan_end : Option ℤ
  actual_start : Option ℤ
  actual_end : Option ℤ
  progress_pct : Option ℚ
deriving DecidableEq

/-- The kinds of validation messages, in the order the loop emits them. -/
inductive VKind where
  | emptyTask
  | emptyOwner
  | emptyStatus
  | planOrder
  | actualOrder
  | pctRange
deriving DecidableEq

/-- A row-scoped validation message: the 1-based row id and the violation. -/
structure VError where
  rowId : ℕ
  kind : VKind
deriving DecidableEq

/-- `pd.isna(x) or str(x).strip() == ''`. -/
def blankCell : Option String → Bool
  | none => true
  | some s => pyStrip s = ""

/-- Whether one validation condition fires on a row (lines 2444-2480). -/
def kindViolated (k : VKind) (r : EditedRow) : Bool :=
  match k with
  | .emptyTask => blankCell r.task
  | .emptyOwner => blankCell r.owner
  | .emptyStatus => blankCell r.status
  | .planOrder =>
    match r.plan_start, r.plan_end with
    | some a, some b => decide (b < a)
    | _, _ => false
  | .actualOrder =>
    match r.actual_start, r.actual_end with
    | some a, some b => decide (b < a)
    | _, _ => false
  | .pctRange =>
    match r.progress_pct with
    | some p => decide (p < 0 ∨ 100 < p)
    | none => false

/-- All condition kinds, in source order. -/
def allKinds : List VKind :=
  [.emptyTask, .emptyOwner, .emptyStatus, .planOrder, .actualOrder, .pctRange]

/-- The messages one row contributes (row id is `idx + 1`). -/
def validateRow (rid : ℕ) (r : EditedRow) : List VError :=
  (allKinds.filter (fun k => kindViolated k r)).map (fun k => ⟨rid, k⟩)

/-- The validation loop from row id `rid` on. -/
def validateFrom (rid : ℕ) : List EditedRow → List VError
  | [] => []
  | r :: rs => validateRow rid r ++ validateFrom (rid + 1) rs

/-- `validation_errors` accumulated over the whole edited table. -/
def validateAll (rows : List EditedRow) : List VError :=
  validateFrom 1 rows

/-- The displayed messages: `validation_errors[:10]` (line 2485). -/
def displayedErrors (rows : List EditedRow) : List VError :=
  (validateAll rows).take 10

/-- Lines 2483-2520: when any message exists the whole commit is skipped
(`none`); otherwise the edited rows become the new session table. -/
def commitEdits (rows : List EditedRow) : Option (List EditedRow) :=
  if validateAll rows = [] then some rows else none

/-- The session table after the commit attempt: unchanged on rejection. -/
def sessionAfterCommit (rows table : List EditedRow) : List EditedRow :=
  (commitEdits rows).getD table

/-- The spec's description of a violating row: empty task name, owner or
status; a plan or actual start date after its end date; or a completion
percentage outside 0–100. -/
def rowViolatesSpec (r : EditedRow) : Prop :=
  blankCell r.task = true ∨ blankCell r.owner = true ∨ blankCell r.status = true ∨
  (∃ a b, r.plan_start = some a ∧ r.plan_end = some b ∧ b < a) ∨
  (∃ a b, r.actual_start = some a ∧ r.actual_end = some b ∧ b < a) ∨
  (∃ p, r.progress_pct = some p ∧ (p < 0 ∨ 100 < p))

end Ohtc

namespace Ohtc

/-! ## Helper lemmas on `dropWhile`, `stripChars` and `removeParens` -/

theorem length_dropWhile_le {α : Type} (p : α → Bool) (l : List α) :
    (List.dropWhile p l).length ≤ l.length := by
  induction l with
  | nil => simp
  | cons c l ih =>
    by_cases hc : p c = true
    · rw [List.dropWhile_cons_of_pos hc]
      exact Nat.le_trans ih (Nat.le_succ _)
    · rw [List.dropWhile_cons_of_neg hc]

theorem dropWhile_idem {α : Type} (p : α → Bool) (l : List α) :
    List.dropWhile p (List.dropWhile p l) = List.dropWhile p l := by
  induction l with
  | nil => rfl
  | cons c l ih =>
    by_cases hc : p c = true
    · rw [List.dropWhile_cons_of_pos hc]
      exact ih
    · rw [List.dropWhile_cons_of_neg hc, List.dropWhile_cons_of_neg hc]

theorem dropWhile_append_eq {α : Type} (p : α → Bool) (l1 l2 : List α)
    (h2 : List.dropWhile p l2 = l2) :
    List.dropWhile p (l1 ++ l2) = List.dropWhile p l1 ++ l2 := by
  induction l1 with
  | nil => simpa using h2
  | cons c l ih =>
    by_cases hc : p c = true
    · rw [List.cons_append, List.dropWhile_cons_of_pos hc, ih, List.dropWhile_cons_of_pos hc]
    · rw [List.cons_append, List.dropWhile_cons_of_neg hc, List.dropWhile_cons_of_neg hc,
        List.cons_append]

theorem dropWhile_eq_self_of_append {α : Type} (p : α → Bool) (t w : List α)
    (h : List.dropWhile p (t ++ w) = t ++ w) : List.dropWhile p t = t := by
  cases t with
  | nil => rfl
  | cons c t =>
    by_cases hc : p c = true
    · exfalso
      rw [List.cons_append, List.dropWhile_cons_of_pos hc] at h
      have hlen := length_dropWhile_le p (t ++ w)
      rw [h] at hlen
      simp only [List.length_cons, List.length_append] at hlen
      omega
    · exact List.dropWhile_cons_of_neg hc

theorem mem_dropWhile {α : Type} {p : α → Bool} {x : α} :
    ∀ {l : List α}, x ∈ List.dropWhile p l → x ∈ l := by
  intro l
  induction l with
  | nil => intro h; simp at h
  | cons c l ih =>
    intro h
    by_cases hc : p c = true
    · rw [List.dropWhile_cons_of_pos hc] at h
      exact List.mem_cons_of_mem _ (ih h)
    · rw [List.dropWhile_cons_of_neg hc] at h
      exact h

theorem stripChars_mem {x : Char} {l : List Char} (h : x ∈ stripChars l) : x ∈ l := by
  unfold stripChars at h
  rw [List.mem_reverse] at h
  have h2 := mem_dropWhile h
  rw [List.mem_reverse] at h2
  exact mem_dropWhile h2

theorem dropWhile_stripChars (l : List Char) :
    List.dropWhile isPyWs (stripChars l) = stripChars l := by
  have hdecomp : List.dropWhile isPyWs l =
      stripChars l ++ (List.takeWhile isPyWs (List.dropWhile isPyWs l).reverse).reverse := by
    have h1 := List.takeWhile_append_dropWhile isPyWs (List.dropWhile isPyWs l).reverse
    have h2 := congrArg List.reverse h1
    rw [List.reverse_append, List.reverse_reverse] at h2
    exact h2.symm
  exact dropWhile_eq_self_of_append isPyWs _ _ (by rw [← hdecomp]; exact dropWhile_idem _ _)

theorem stripChars_idem (l : List Char) : stripChars (stripChars l) = stripChars l := by
  show ((List.dropWhile isPyWs (stripChars l)).reverse.dropWhile isPyWs).reverse = stripChars l
  rw [dropWhile_stripChars]
  have h2 : (stripChars l).reverse = List.dropWhile isPyWs (List.dropWhile isPyWs l).reverse := by
    unfold stripChars
    rw [List.reverse_reverse]
  rw [h2, dropWhile_idem]
  rfl

theorem stripChars_dropWhile (l : List Char) :
    stripChars (List.dropWhile isPyWs l) = stripChars l := by
  show ((List.dropWhile isPyWs (List.dropWhile isPyWs l)).reverse.dropWhile isPyWs).reverse = _
  rw [dropWhile_idem]
  rfl

theorem stripChars_wrap (l a : List Char) :
    stripChars (l ++ '(' :: (a ++ [')'])) =
      List.dropWhile isPyWs l ++ '(' :: (a ++ [')']) := by
  show ((List.dropWhile isPyWs (l ++ '(' :: (a ++ [')']))).reverse.dropWhile isPyWs).reverse = _
  rw [dropWhile_append_eq isPyWs l _ (List.dropWhile_cons_of_neg (by decide))]
  rw [List.reverse_append]
  have hrev : ('(' :: (a ++ [')'])).reverse = ')' :: (a.reverse ++ ['(']) := by
    simp [List.reverse_cons, List.reverse_append]
  rw [hrev, List.cons_append, List.dropWhile_cons_of_neg (by decide)]
  rw [← List.cons_append, ← hrev, ← List.reverse_append, List.reverse_reverse]

theorem dropThroughClose_length :
    ∀ (cs rest : List Char), dropThroughClose cs = some rest → rest.length < cs.length := by
  intro cs
  induction cs with
  | nil => intro rest h; simp [dropThroughClose] at h
  | cons c cs ih =>
    intro rest h
    by_cases hc : c = ')'
    · simp only [dropThroughClose, hc, if_pos, Option.some.injEq] at h
      subst h
      exact Nat.lt_succ_self _
    · simp only [dropThroughClose, hc, if_false, ite_false] at h
      exact Nat.lt_trans (ih rest h) (Nat.lt_succ_self _)

theorem removeParensF_congr :
    ∀ (f g : ℕ) (cs : List Char), cs.length ≤ f → cs.length ≤ g →
      removeParensF f cs = removeParensF g cs := by
  intro f
  induction f with
  | zero =>
    intro g cs hf _
    have : cs = [] := List.length_eq_zero.mp (Nat.le_zero.mp hf)
    subst this
    cases g <;> rfl
  | succ f ih =>
    intro g cs hf hg
    cases cs with
    | nil => cases g <;> rfl
    | cons c cs =>
      cases g with
      | zero => simp at hg
      | succ g =>
        simp only [List.length_cons, Nat.succ_le_succ_iff] at hf hg
        show (if c = '(' then
            match dropThroughClose cs with
            | some rest => removeParensF f rest
            | none => c :: cs
          else c :: removeParensF f cs) =
          (if c = '(' then
            match dropThroughClose cs with
            | some rest => removeParensF g rest
            | none => c :: cs
          else c :: removeParensF g cs)
        by_cases hc : c = '('
        · rw [if_pos hc, if_pos hc]
          cases hd : dropThroughClose cs with
          | none => rfl
          | some rest =>
            have hlt := dropThroughClose_length cs rest hd
            exact ih g rest (by omega) (by omega)
        · rw [if_neg hc, if_neg hc, ih g cs hf hg]

theorem removeParens_nil : removeParens [] = [] := rfl

theorem removeParens_cons_of_ne (c : Char) (t : List Char) (hc : c ≠ '(') :
    removeParens (c :: t) = c :: removeParens t := by
  show removeParensF (t.length + 1) (c :: t) = _
  simp only [removeParensF, hc, if_false, ite_false]
  rfl

theorem dropThroughClose_append : ∀ (a r : List Char), (∀ c ∈ a, c ≠ ')') →
    dropThroughClose (a ++ ')' :: r) = some r := by
  intro a
  induction a with
  | nil => intro r h; simp [dropThroughClose]
  | cons c a ih =>
    intro r h
    have hc : c ≠ ')' := h c (by simp)
    rw [List.cons_append]
    simp only [dropThroughClose, hc, if_false, ite_false]
    exact ih r (fun x hx => h x (List.mem_cons_of_mem _ hx))

theorem removeParens_open (a r : List Char) (ha : ∀ c ∈ a, c ≠ ')') :
    removeParens ('(' :: (a ++ ')' :: r)) = removeParens r := by
  have hd := dropThroughClose_append a r ha
  have hlt := dropThroughClose_length (a ++ ')' :: r) r hd
  show removeParensF ((a ++ ')' :: r).length + 1) ('(' :: (a ++ ')' :: r)) = _
  simp only [removeParensF, if_true]
  rw [hd]
  exact removeParensF_congr _ _ r (by omega) (by omega)

theorem removeParens_append_of_free :
    ∀ (l m : List Char), (∀ c ∈ l, c ≠ '(') →
      removeParens (l ++ m) = l ++ removeParens m := by
  intro l
  induction l with
  | nil => intro m _; simp
  | cons c l ih =>
    intro m h
    have hc : c ≠ '(' := h c (by simp)
    rw [List.cons_append, removeParens_cons_of_ne c _ hc,
      ih m (fun x hx => h x (List.mem_cons_of_mem _ hx)), List.cons_append]

theorem removeParens_of_free (l : List Char) (h : ∀ c ∈ l, c ≠ '(') :
    removeParens l = l := by
  have h1 := removeParens_append_of_free l [] h
  simpa [removeParens_nil] using h1

theorem cleanDateText_append_paren_span (s ann : String)
    (hs : ∀ c ∈ s.data, c ≠ '(') (ha : ∀ c ∈ ann.data, c ≠ ')') :
    cleanDateText (s ++ "(" ++ ann ++ ")") = cleanDateText s := by
  have hdata : (s ++ "(" ++ ann ++ ")").data = s.data ++ '(' :: (ann.data ++ [')']) := by
    rw [String.data_append, String.data_append, String.data_append]
    show s.data ++ ['('] ++ ann.data ++ [')'] = _
    simp [List.append_assoc]
  unfold cleanDateText
  rw [hdata, stripChars_wrap s.data ann.data]
  rw [removeParens_append_of_free _ _ (fun c hc => hs c (mem_dropWhile hc))]
  have hopen : removeParens ('(' :: (ann.data ++ [')'])) = [] := by
    have := removeParens_open ann.data [] ha
    simpa [removeParens_nil] using this
  rw [hopen, List.append_nil, stripChars_dropWhile]
  rw [removeParens_of_free (stripChars s.data) (fun c hc => hs c (stripChars_mem hc))]
  rw [stripChars_idem]

/-! ## C7: numeric parsers are total with default fallbacks -/

/-- C7: `safe_float` / `safe_int` are total (no exception is modelled as an
escaping error; every branch returns a value of the target type); an absent
value yields the supplied default; any text whose stripped form is not a
plain ASCII numeral — in particular any stripped text containing a
non-ASCII character — yields the supplied default; and `safe_int` truncates
toward zero after a successful numeric parse. -/
theorem c7_parsers_never_raise_default :
    (∀ d : ℚ, safe_float RawCell.absent d = d) ∧
    (∀ dz : ℤ, safe_int RawCell.absent dz = dz) ∧
    (∀ (s : String) (d : ℚ), isPlainNumeral (stripChars s.data) = false →
      safe_float (RawCell.str s) d = d) ∧
    (∀ (s : String) (dz : ℤ), isPlainNumeral (stripChars s.data) = false →
      safe_int (RawCell.str s) dz = dz) ∧
    (∀ (s : String) (d : ℚ), hasNonAscii (stripChars s.data) = true →
      safe_float (RawCell.str s) d = d) ∧
    (∀ (s : String) (dz : ℤ), hasNonAscii (stripChars s.data) = true →
      safe_int (RawCell.str s) dz = dz) ∧
    (∀ (q : ℚ) (dz : ℤ), safe_int (RawCell.num q) dz = truncToward0 q) := by
  have hnone : ∀ s : String, isPlainNumeral (stripChars s.data) = false →
      pyFloatOfString s = none := by
    intro s h
    rw [pyFloatOfString]
    cases ho : signedFloatParse (stripChars s.data) with
    | none => rfl
    | some v => rw [isPlainNumeral, ho] at h; simp at h
  refine ⟨fun d => rfl, fun dz => rfl, ?_, ?_, ?_, ?_, fun q dz => rfl⟩
  · intro s d h
    simp only [safe_float, hnone s h, ite_self]
  · intro s dz h
    simp only [safe_int, hnone s h, ite_self]
  · intro s d h
    simp only [safe_float, h, if_true]
  · intro s dz h
    simp only [safe_int, h, if_true]

/-- Witness for C7: concrete malformed inputs (a CJK header fragment, and
embedded text around digits) hit the default. -/
theorem c7_witness :
    isPlainNumeral (stripChars "工時佔比".data) = false ∧
    safe_float (RawCell.str "工時佔比") 3 = 3 ∧
    isPlainNumeral (stripChars "abc12x".data) = false ∧
    safe_int (RawCell.str "abc12x") 8 = 8 ∧
    hasNonAscii (stripChars " 完成 ".data) = true ∧
    safe_float (RawCell.str " 完成 ") 5 = 5 :=
  ⟨by decide,
   c7_parsers_never_raise_default.2.2.1 "工時佔比" 3 (by decide),
   by decide,
   c7_parsers_never_raise_default.2.2.2.1 "abc12x" 8 (by decide),
   by decide,
   c7_parsers_never_raise_default.2.2.2.2.1 " 完成 " 5 (by decide)⟩

/-! ## C1: which export columns preserve formulas -/

/-- C1 (amended): the export preserves a non-external formula cell in the
formula-guarded columns — task name (1), owner (3), progress (5),
target (6), remaining days (7), plan days (11), actual days (14) and
variance days (15).  The status (8), coordination (16-19) and notes (20)
columns are written without the formula check, and the date columns
(9, 10, 12, 13) are overwritten whenever the task carries the date, so a
formula there is not preserved. -/
theorem c1_guarded_columns_preserve_formulas (t : XTask) (old : CellV) (col : ℕ)
    (hcol : col ∈ ([1, 3, 5, 6, 7, 11, 14, 15] : List ℕ))
    (hf : isFormulaV old = true) (he : isExternalV old = false) :
    exportTaskCell t old col = old := by
  fin_cases hcol <;> simp [exportTaskCell, stripExternalV, he, writeGuard, hf]

/-- Counterexample to C1 as stated: a plain same-workbook formula in the
status column (column 8) is overwritten by the task's status value. -/
theorem c1_counterexample_status_formula_overwritten :
    isFormulaV (CellV.str "=H6") = true ∧
    isExternalV (CellV.str "=H6") = false ∧
    exportTaskCell ⟨"任務A", "王", "Going", "", "", "", "", "", 10, 20, 3, 5, 4, 0,
        none, none, none, none⟩ (CellV.str "=H6") 8 = CellV.str "Going" ∧
    exportTaskCell ⟨"任務A", "王", "Going", "", "", "", "", "", 10, 20, 3, 5, 4, 0,
        none, none, none, none⟩ (CellV.str "=H6") 8 ≠ CellV.str "=H6" := by
  refine ⟨by decide, by decide, rfl, by decide⟩

/-- Witness for C1: a concrete formula in the progress column (column 5)
survives the export. -/
theorem c1_witness :
    (5 : ℕ) ∈ ([1, 3, 5, 6, 7, 11, 14, 15] : List ℕ) ∧
    isFormulaV (CellV.str "=E6*2") = true ∧
    isExternalV (CellV.str "=E6*2") = false ∧
    exportTaskCell ⟨"任務A", "王", "Going", "", "", "", "", "", 10, 20, 3, 5, 4, 0,
        none, none, none, none⟩ (CellV.str "=E6*2") 5 = CellV.str "=E6*2" :=
  ⟨by decide, by decide, by decide,
   c1_guarded_columns_preserve_formulas
     ⟨"任務A", "王", "Going", "", "", "", "", "", 10, 20, 3, 5, 4, 0,
        none, none, none, none⟩ (CellV.str "=E6*2") 5
     (by decide) (by decide) (by decide)⟩

/-! ## C2 and C3: hierarchy classification -/

theorem markerLevel_of_invalid (m : String) (hv : validMarkerB m = false) :
    markerLevel m = (0, false) := by
  unfold validMarkerB at hv
  simp only [Bool.or_eq_false_iff, decide_eq_false_iff_not] at hv
  obtain ⟨⟨⟨h1, h2⟩, h3⟩, h4⟩ := hv
  unfold markerLevel
  rw [if_neg h1, if_neg h2, if_neg h3]
  cases hi : pyIntOfString m with
  | none => rfl
  | some n =>
    rw [hi] at h4
    simp only [decide_eq_false_iff_not] at h4
    simp [h4]

/-- C2 (amended): for a row with a valid explicit marker, the stored `level`
always equals the marker-implied level, regardless of color, indentation,
owner or dates; the marker forces `is_parent = true` only when it implies
level 0, while for an explicit sub/sub-sub marker the `is_parent` flag still
falls through to the fill-color rule (a qualifying green fill makes it true
even though the level is not 0). -/
theorem c2_marker_level_dominates (r : TaskRowInput)
    (hv : validMarkerB (markerOf r) = true) :
    (classifyRow r).level = impliedLevel (markerOf r) ∧
    (markerSaysMain (markerOf r) = true → (classifyRow r).is_parent = true) ∧
    (markerSaysMain (markerOf r) = false → greenFill r.fillRgb = true →
      (classifyRow r).is_parent = true) := by
  refine ⟨rfl, ?_, ?_⟩
  · intro hm
    unfold markerSaysMain at hm
    simp [classifyRow, hm]
  · intro hm hg
    unfold markerSaysMain at hm
    simp [classifyRow, hm, hg]

/-- Counterexample to C2 as stated: a row whose marker is the explicit
sub-item marker `次項目` but whose name cell has a green fill
(`FF00C800`: r = 0, g = 200, b = 0) gets `level = 1` with
`is_parent = true`, so the main-item flag is not `level = 0` and is not
independent of the fill color. -/
theorem c2_counterexample_sub_marker_green_fill :
    validMarkerB (markerOf (⟨"任務A", some "次項目", some "", some "FF00C800",
        false, false⟩ : TaskRowInput)) = true ∧
    (classifyRow (⟨"任務A", some "次項目", some "", some "FF00C800",
        false, false⟩ : TaskRowInput)).level = 1 ∧
    (classifyRow (⟨"任務A", some "次項目", some "", some "FF00C800",
        false, false⟩ : TaskRowInput)).is_parent = true := by
  decide

/-- Witness for C2: a concrete row with marker `3` and no color signal gets
level 2, and a marker-main row gets `is_parent = true`. -/
theorem c2_witness :
    validMarkerB (markerOf (⟨"任務B", some "3", some "王", none, true,
        true⟩ : TaskRowInput)) = true ∧
    (classifyRow (⟨"任務B", some "3", some "王", none, true,
        true⟩ : TaskRowInput)).level = 2 ∧
    (classifyRow (⟨"任務C", some "主項目", some "王", none, true,
        true⟩ : TaskRowInput)).is_parent = true :=
  ⟨by decide,
   by
    have h := (c2_marker_level_dominates
      (⟨"任務B", some "3", some "王", none, true, true⟩ : TaskRowInput) (by decide)).1
    rw [h]
    decide,
   (c2_marker_level_dominates
      (⟨"任務C", some "主項目", some "王", none, true, true⟩ : TaskRowInput)
      (by decide)).2.1 (by decide)⟩

/-- C3 (amended): a row without a valid marker keeps the stored `level` 0 —
the `level` field is derived from the marker alone, so leading whitespace
never changes it — while a leading space or tab in the name forces
`is_parent = false` unless the green-fill rule has already fired. -/
theorem c3_unmarked_indented_row (r : TaskRowInput)
    (hv : validMarkerB (markerOf r) = false) :
    (classifyRow r).level = 0 ∧
    (hasLeadingSpaceB r = true → greenFill r.fillRgb = false →
      (classifyRow r).is_parent = false) := by
  have hm := markerLevel_of_invalid (markerOf r) hv
  constructor
  · show (markerLevel (markerOf r)).1 = 0
    rw [hm]
  · intro hl hg
    simp [classifyRow, hm, hl, hg]

/-- Counterexample to C3 as stated: a row with no marker whose name starts
with a space is stored with `level = 0`, not the claimed level 1 (only its
`is_parent` flag is false). -/
theorem c3_counterexample_indented_row_level_zero :
    validMarkerB (markerOf (⟨" 子任務", none, some "王", none, true,
        true⟩ : TaskRowInput)) = false ∧
    hasLeadingSpaceB (⟨" 子任務", none, some "王", none, true,
        true⟩ : TaskRowInput) = true ∧
    (classifyRow (⟨" 子任務", none, some "王", none, true,
        true⟩ : TaskRowInput)).level = 0 := by
  decide

/-- Witness for C3: a concrete unmarked, indented, owner-bearing row has
stored level 0 and `is_parent = false`. -/
theorem c3_witness :
    validMarkerB (markerOf (⟨" 縮排列", none, some "李", none, true,
        false⟩ : TaskRowInput)) = false ∧
    (classifyRow (⟨" 縮排列", none, some "李", none, true,
        false⟩ : TaskRowInput)).level = 0 ∧
    (classifyRow (⟨" 縮排列", none, some "李", none, true,
        false⟩ : TaskRowInput)).is_parent = false :=
  ⟨by decide,
   (c3_unmarked_indented_row
      (⟨" 縮排列", none, some "李", none, true, false⟩ : TaskRowInput) (by decide)).1,
   (c3_unmarked_indented_row
      (⟨" 縮排列", none, some "李", none, true, false⟩ : TaskRowInput)
      (by decide)).2 (by decide) (by decide)⟩

/-! ## C6: percentage normalization -/

theorem le_foldl_max (xs : List ℚ) : ∀ a : ℚ, a ≤ xs.foldl max a := by
  induction xs with
  | nil => intro a; exact le_refl a
  | cons x xs ih =>
    intro a
    exact le_trans (le_max_left a x) (ih (max a x))

theorem mem_le_foldl_max (xs : List ℚ) :
    ∀ (a : ℚ) (v : ℚ), v ∈ xs → v ≤ xs.foldl max a := by
  induction xs with
  | nil => intro a v hv; simp at hv
  | cons x xs ih =>
    intro a v hv
    rcases List.mem_cons.mp hv with h | h
    · subst h
      exact le_trans (le_max_right a v) (le_foldl_max xs (max a v))
    · exact ih (max a x) v h

theorem foldl_max_mem (xs : List ℚ) :
    ∀ a : ℚ, xs.foldl max a = a ∨ xs.foldl max a ∈ xs := by
  induction xs with
  | nil => intro a; exact Or.inl rfl
  | cons x xs ih =>
    intro a
    rcases ih (max a x) with h | h
    · rcases max_choice a x with hm | hm
      · exact Or.inl (h.trans hm)
      · exact Or.inr (by rw [List.foldl_cons, h, hm]; exact List.mem_cons_self _ _)
    · exact Or.inr (List.mem_cons_of_mem _ (by rw [List.foldl_cons]; exact h))

theorem listMax_mem (xs : List ℚ) (h : xs ≠ []) : listMax xs ∈ xs := by
  cases xs with
  | nil => exact absurd rfl h
  | cons x xs =>
    rcases foldl_max_mem xs x with h1 | h1
    · rw [listMax, h1]; exact List.mem_cons_self _ _
    · exact List.mem_cons_of_mem _ (by rw [listMax]; exact h1)

theorem le_listMax (xs : List ℚ) (v : ℚ) (hv : v ∈ xs) : v ≤ listMax xs := by
  cases xs with
  | nil => simp at hv
  | cons x xs =>
    rcases List.mem_cons.mp hv with h | h
    · subst h; exact le_foldl_max xs v
    · exact mem_le_foldl_max xs x v h

theorem listMax_map_mul100 (xs : List ℚ) :
    ∀ a : ℚ, (xs.map (fun v => v * 100)).foldl max (a * 100) = xs.foldl max a * 100 := by
  induction xs with
  | nil => intro a; rfl
  | cons x xs ih =>
    intro a
    rw [List.map_cons, List.foldl_cons, List.foldl_cons]
    rw [← max_mul_of_nonneg a x (by norm_num : (0:ℚ) ≤ 100)]
    exact ih (max a x)

/-- C6 (amended): the rescale step leaves a column untouched whenever its
maximum already exceeds 1; for a column of values in `[0, 1]`, one
application keeps every value in `[0, 100]`, pushes the maximum above 1
provided the original maximum exceeds 1/100 (a 0–1 column whose maximum is
at most 1/100 rescales to a maximum still at most 1), and an all-zero
column is left unchanged. -/
theorem c6_rescale_normalization (xs : List ℚ) :
    (1 < listMax xs → normalizePct xs = xs) ∧
    ((∀ v ∈ xs, 0 ≤ v ∧ v ≤ 1) → xs ≠ [] →
      ((∀ v ∈ normalizePct xs, 0 ≤ v ∧ v ≤ 100) ∧
       (1 / 100 < listMax xs → 1 < listMax (normalizePct xs)) ∧
       ((∀ v ∈ xs, v = 0) → normalizePct xs = xs))) := by
  constructor
  · intro hgt
    unfold normalizePct
    by_cases he : xs = []
    · rw [if_pos he]
    · rw [if_neg he, if_neg (by rintro ⟨h1, _⟩; exact absurd hgt (not_lt.mpr h1))]
  · intro hb hne
    have hmax_le : listMax xs ≤ 1 := (hb _ (listMax_mem xs hne)).2
    by_cases hpos : 0 < listMax xs
    · have hcond : listMax xs ≤ 1 ∧ 0 < listMax xs := ⟨hmax_le, hpos⟩
      have hform : normalizePct xs = xs.map (fun v => v * 100) := by
        unfold normalizePct
        rw [if_neg hne, if_pos hcond]
      refine ⟨?_, ?_, ?_⟩
      · intro v hv
        rw [hform] at hv
        rcases List.mem_map.mp hv with ⟨w, hw, rfl⟩
        rcases hb w hw with ⟨h0, h1⟩
        constructor <;> nlinarith
      · intro hsmall
        rw [hform]
        cases xs with
        | nil => exact absurd rfl hne
        | cons x xs =>
          simp only [List.map_cons, listMax]
          rw [listMax_map_mul100 xs x]
          simp only [listMax] at hsmall
          nlinarith
      · intro hzero
        have h0 := hzero _ (listMax_mem xs hne)
        rw [h0] at hpos
        exact absurd hpos (lt_irrefl 0)
    · have hzero_max : listMax xs = 0 := by
        have h0 : 0 ≤ listMax xs := by
          cases xs with
          | nil => exact absurd rfl hne
          | cons x xs => exact le_trans (hb x (List.mem_cons_self _ _)).1 (le_listMax _ x (List.mem_cons_self _ _))
        exact le_antisymm (not_lt.mp hpos) h0
      have hform : normalizePct xs = xs := by
        unfold normalizePct
        rw [if_neg hne, if_neg (by rintro ⟨_, h2⟩; exact absurd h2 hpos)]
      refine ⟨?_, ?_, fun _ => hform⟩
      · intro v hv
        rw [hform] at hv
        rcases hb v hv with ⟨h0, h1⟩
        exact ⟨h0, by linarith⟩
      · intro hsmall
        rw [hzero_max] at hsmall
        norm_num at hsmall

/-- Counterexample to C6 as stated: the one-cell 0–1 column `[1/200]` is not
all-zero, yet one application of the rescale yields `[1/2]`, whose maximum
is still not above 1 (so re-checking the maximum would rescale again). -/
theorem c6_counterexample_small_max_column :
    (∀ v ∈ [(1:ℚ)/200], 0 ≤ v ∧ v ≤ 1) ∧
    (¬ ∀ v ∈ [(1:ℚ)/200], v = 0) ∧
    normalizePct [(1:ℚ)/200] = [(1:ℚ)/2] ∧
    ¬ 1 < listMax (normalizePct [(1:ℚ)/200]) := by
  have hform : normalizePct [(1:ℚ)/200] = [(1:ℚ)/2] := by
    unfold normalizePct
    rw [if_neg (by simp), if_pos ⟨by norm_num [listMax], by norm_num [listMax]⟩]
    norm_num
  refine ⟨?_, ?_, hform, ?_⟩
  · intro v hv
    rw [List.mem_singleton] at hv
    subst hv
    norm_num
  · intro h
    have := h ((1:ℚ)/200) (List.mem_singleton.mpr rfl)
    norm_num at this
  · rw [hform]
    norm_num [listMax]

/-- Witness for C6: the 0–1 column `[1/2]` has maximum above 1/100, and one
rescale pushes the column maximum above 1. -/
theorem c6_witness :
    (∀ v ∈ [(1:ℚ)/2], 0 ≤ v ∧ v ≤ 1) ∧
    (1:ℚ) / 100 < listMax [(1:ℚ)/2] ∧
    1 < listMax (normalizePct [(1:ℚ)/2]) :=
  ⟨by
    intro v hv
    rw [List.mem_singleton] at hv
    subst hv
    norm_num,
   by norm_num [listMax],
   ((c6_rescale_normalization [(1:ℚ)/2]).2
      (by
        intro v hv
        rw [List.mem_singleton] at hv
        subst hv
        norm_num)
      (by simp)).2.1 (by norm_num [listMax])⟩

/-! ## C5: undo/redo history -/

theorem pyGet_neg_one {α : Type} [Inhabited α] (l : List α) :
    pyGet l (-1) = l.getD (l.length - 1) default := by
  unfold pyGet
  rw [if_neg (by omega)]
  congr 1
  omega

theorem getD_append_len {α : Type} [Inhabited α] (h : List α) (v : α) :
    (h ++ [v]).getD h.length default = v := by
  rw [List.getD_append_right h [v] default h.length (le_refl _)]
  simp

theorem pyGet_last_append {α : Type} [Inhabited α] (h : List α) (v : α) :
    pyGet (h ++ [v]) (-1) = v := by
  rw [pyGet_neg_one]
  have hl : (h ++ [v]).length - 1 = h.length := by simp
  rw [hl, getD_append_len]

theorem pyGet_drop_neg_one {α : Type} [Inhabited α] (l : List α) (k : ℕ)
    (hk : k < l.length) :
    pyGet (l.drop k) (-1) = pyGet l (-1) := by
  rw [pyGet_neg_one, pyGet_neg_one]
  have h1 : (l.drop k).length - 1 < (l.drop k).length := by
    rw [List.length_drop]
    omega
  have h2 : l.length - 1 < l.length := by omega
  rw [List.getD_eq_getElem _ _ h1, List.getD_eq_getElem _ _ h2]
  rw [List.getElem_drop]
  congr 1
  rw [List.length_drop]
  omega

theorem pyGet_append_nonneg {α : Type} [Inhabited α] (h t : List α) (i : ℤ)
    (h0 : 0 ≤ i) (hl : i < (h.length : ℤ)) :
    pyGet (h ++ t) i = h.getD i.toNat default := by
  unfold pyGet
  rw [if_pos h0]
  exact List.getD_append h t default i.toNat (by omega)

theorem capState_last {α : Type} [Inhabited α] (h1 : List α) (c : α) (hne : h1 ≠ []) :
    (capState h1 c).hist ≠ [] ∧ pyGet (capState h1 c).hist (-1) = pyGet h1 (-1) := by
  unfold capState
  by_cases hcap : histCap < h1.length
  · rw [if_pos hcap]
    constructor
    · have hlen : (h1.drop (h1.length - histCap)).length = histCap := by
        rw [List.length_drop]
        omega
      show h1.drop (h1.length - histCap) ≠ []
      intro hnil
      rw [hnil] at hlen
      simp [histCap] at hlen
    · exact pyGet_drop_neg_one h1 _ (by unfold histCap at hcap ⊢; omega)
  · rw [if_neg hcap]
    exact ⟨hne, rfl⟩

theorem pushPre_props {α : Type} [DecidableEq α] [Inhabited α] (s : HistState α) :
    (pushPre s).hist ≠ [] ∧ pyGet (pushPre s).hist (-1) = s.cur := by
  unfold pushPre
  by_cases hc : s.hist.length = 0 ∨ s.cur ≠ pyGet s.hist (-1)
  · rw [if_pos hc]
    have hne : s.hist.take (s.idx + 1).toNat ++ [s.cur] ≠ [] := by simp
    rcases capState_last _ s.cur hne with ⟨h1, h2⟩
    exact ⟨h1, by rw [h2]; exact pyGet_last_append _ _⟩
  · rw [if_neg hc]
    push_neg at hc
    refine ⟨?_, hc.2.symm⟩
    intro hnil
    exact hc.1 (by rw [hnil]; rfl)

theorem commit_aligned {α : Type} [DecidableEq α] [Inhabited α] (v : α) (s : HistState α) :
    (commit v s).hist ≠ [] ∧
    (commit v s).idx = ((commit v s).hist.length : ℤ) - 1 ∧
    (commit v s).cur = pyGet (commit v s).hist (-1) := by
  refine ⟨by simp [commit], ?_, ?_⟩
  · show ((pushPre s).hist.length : ℤ) = (((pushPre s).hist ++ [v]).length : ℤ) - 1
    rw [List.length_append, List.length_singleton]
    push_cast
    ring
  · show v = pyGet ((pushPre s).hist ++ [v]) (-1)
    rw [pyGet_last_append]

theorem commit_of_aligned {α : Type} [DecidableEq α] [Inhabited α] (v : α)
    (s : HistState α) (h1 : s.hist ≠ []) (h3 : s.cur = pyGet s.hist (-1)) :
    commit v s = ⟨s.hist ++ [v], (s.hist.length : ℤ), v⟩ := by
  have hp : pushPre s = s := by
    unfold pushPre
    rw [if_neg ?_]
    push_neg
    exact ⟨fun h0 => h1 (List.length_eq_zero.mp h0), h3⟩
  unfold commit
  rw [hp]

theorem commitList_cons {α : Type} [DecidableEq α] [Inhabited α] (v : α) (vs : List α)
    (s : HistState α) : commitList (v :: vs) s = commitList vs (commit v s) := rfl

theorem commitList_from_aligned {α : Type} [DecidableEq α] [Inhabited α]
    (vs : List α) : ∀ s : HistState α,
    s.hist ≠ [] → s.idx = (s.hist.length : ℤ) - 1 → s.cur = pyGet s.hist (-1) →
    (commitList vs s).hist = s.hist ++ vs ∧
    (commitList vs s).hist ≠ [] ∧
    (commitList vs s).idx = ((commitList vs s).hist.length : ℤ) - 1 ∧
    (commitList vs s).cur = pyGet (commitList vs s).hist (-1) := by
  induction vs with
  | nil =>
    intro s h1 h2 h3
    exact ⟨by simp [commitList], h1, h2, h3⟩
  | cons v vs ih =>
    intro s h1 h2 h3
    have hstep : commit v s = ⟨s.hist ++ [v], (s.hist.length : ℤ), v⟩ :=
      commit_of_aligned v s h1 h3
    have hP := commit_aligned v s
    have ih2 := ih (commit v s) hP.1 hP.2.1 hP.2.2
    rw [commitList_cons]
    refine ⟨?_, ih2.2.1, ih2.2.2.1, ih2.2.2.2⟩
    rw [ih2.1, hstep]
    show (s.hist ++ [v]) ++ vs = s.hist ++ v :: vs
    rw [List.append_assoc]
    rfl

theorem commitList_struct {α : Type} [DecidableEq α] [Inhabited α] (v : α)
    (vs : List α) (s : HistState α) :
    ∃ h : List α, (commitList (v :: vs) s).hist = h ++ (v :: vs) ∧
      (commitList (v :: vs) s).idx = ((h ++ (v :: vs)).length : ℤ) - 1 ∧
      h ≠ [] ∧ pyGet h (-1) = s.cur := by
  obtain ⟨hne, hlast⟩ := pushPre_props s
  have hP := commit_aligned v s
  have ih2 := commitList_from_aligned vs (commit v s) hP.1 hP.2.1 hP.2.2
  have hassoc : (commit v s).hist ++ vs = (pushPre s).hist ++ (v :: vs) := by
    show (pushPre s).hist ++ [v] ++ vs = _
    rw [List.append_assoc]
    rfl
  refine ⟨(pushPre s).hist, ?_, ?_, hne, hlast⟩
  · rw [commitList_cons, ih2.1, hassoc]
  · rw [commitList_cons, ih2.2.2.1, ih2.1, hassoc]

theorem undoN_walk {α : Type} [Inhabited α] (n : ℕ) : ∀ s : HistState α,
    (n : ℤ) ≤ s.idx →
    (undoN n s).hist = s.hist ∧ (undoN n s).idx = s.idx - n ∧
    (1 ≤ n → (undoN n s).cur = pyGet s.hist (s.idx - n)) := by
  induction n with
  | zero =>
    intro s _
    refine ⟨rfl, ?_, fun h10 => absurd h10 (by norm_num)⟩
    show s.idx = s.idx - ((0 : ℕ) : ℤ)
    push_cast
    ring
  | succ n ih =>
    intro s h
    have hpos : 0 < s.idx := by omega
    have hu : undo s = ⟨s.hist, s.idx - 1, pyGet s.hist (s.idx - 1)⟩ := by
      unfold undo
      rw [if_pos hpos]
    have hle : (n : ℤ) ≤ (undo s).idx := by
      rw [hu]
      show (n : ℤ) ≤ s.idx - 1
      push_cast at h
      omega
    have ih2 := ih (undo s) hle
    have hun : undoN (n + 1) s = undoN n (undo s) := rfl
    refine ⟨by rw [hun, ih2.1, hu], ?_, ?_⟩
    · rw [hun, ih2.2.1, hu]
      show s.idx - 1 - n = s.idx - ((n + 1 : ℕ) : ℤ)
      push_cast
      ring
    · intro _
      by_cases hn : 1 ≤ n
      · rw [hun, ih2.2.2 hn, hu]
        show pyGet s.hist (s.idx - 1 - n) = pyGet s.hist (s.idx - ((n + 1 : ℕ) : ℤ))
        congr 1
        push_cast
        ring
      · have hn0 : n = 0 := by omega
        subst hn0
        rw [hun]
        show (undo s).cur = pyGet s.hist (s.idx - ((1 : ℕ) : ℤ))
        rw [hu]
        congr 1

/-- C5 (amended): (a) after any sequence of `N` committed edits followed by
`N` undos, the current table equals the pre-edit snapshot, from any starting
state; (b) when a commit happens while the current table differs from the
last stored snapshot (the after-an-undo situation), every entry of the new
history comes from the part of the old history up to the pointer, the
pushed pre-edit snapshot, or the new table — the previously redoable
entries beyond the pointer are discarded; (c) from any consistent state,
redo exactly inverts undo.  (The fixed depth 20 caps only the pre-edit
push inside a commit; the post-edit append is uncapped, so the list itself
can exceed 20 entries — see the counterexample.) -/
theorem c5_history_undo_redo {α : Type} [DecidableEq α] [Inhabited α] :
    (∀ (s : HistState α) (vs : List α),
      (undoN vs.length (commitList vs s)).cur = s.cur) ∧
    (∀ (s : HistState α) (v : α), s.cur ≠ pyGet s.hist (-1) →
      ∀ x ∈ (commit v s).hist,
        x ∈ s.hist.take (s.idx + 1).toNat ∨ x = s.cur ∨ x = v) ∧
    (∀ s : HistState α, 0 ≤ s.idx → s.idx < (s.hist.length : ℤ) →
      s.cur = pyGet s.hist s.idx → 0 < s.idx → redo (undo s) = s) := by
  refine ⟨?_, ?_, ?_⟩
  · intro s vs
    cases vs with
    | nil => rfl
    | cons v vs =>
      obtain ⟨h, hhist, hidx, hne, hlast⟩ := commitList_struct v vs s
      have hlen1 : 0 < h.length := List.length_pos.mpr hne
      have hlen : (((v :: vs).length : ℕ) : ℤ) ≤ (commitList (v :: vs) s).idx := by
        rw [hidx, List.length_append]
        push_cast
        simp only [List.length_cons]
        push_cast
        omega
      obtain ⟨hh, hi, hc⟩ := undoN_walk (v :: vs).length (commitList (v :: vs) s) hlen
      rw [hc (by simp), hhist, hidx]
      have hix : ((h ++ (v :: vs)).length : ℤ) - 1 - ((v :: vs).length : ℕ) =
          (h.length : ℤ) - 1 := by
        rw [List.length_append]
        push_cast
        ring
      rw [hix]
      rw [pyGet_append_nonneg h (v :: vs) ((h.length : ℤ) - 1) (by omega) (by omega)]
      have ht : ((h.length : ℤ) - 1).toNat = h.length - 1 := by omega
      rw [ht, ← pyGet_neg_one, hlast]
  · intro s v hnelast x hx
    have hcond : s.hist.length = 0 ∨ s.cur ≠ pyGet s.hist (-1) := Or.inr hnelast
    have hx2 : x ∈ (pushPre s).hist ++ [v] := hx
    have hsub : (pushPre s).hist ⊆ s.hist.take (s.idx + 1).toNat ++ [s.cur] := by
      unfold pushPre
      rw [if_pos hcond]
      unfold capState
      by_cases hcap : histCap < (s.hist.take (s.idx + 1).toNat ++ [s.cur]).length
      · rw [if_pos hcap]
        exact List.drop_subset _ _
      · rw [if_neg hcap]
        exact List.Subset.refl _
    rcases List.mem_append.mp hx2 with hx3 | hx3
    · rcases List.mem_append.mp (hsub hx3) with h | h
      · exact Or.inl h
      · exact Or.inr (Or.inl (List.mem_singleton.mp h))
    · exact Or.inr (Or.inr (List.mem_singleton.mp hx3))
  · intro s h0 hlen hcur hpos
    obtain ⟨hl, hi, hc⟩ := s
    simp only at h0 hlen hcur hpos
    have hu : undo ⟨hl, hi, hc⟩ = ⟨hl, hi - 1, pyGet hl (hi - 1)⟩ := by
      unfold undo
      rw [if_pos hpos]
    rw [hu]
    unfold redo
    rw [if_pos (by simp only; omega)]
    simp only
    have h1 : hi - 1 + 1 = hi := by ring
    rw [h1, ← hcur]

/-- Counterexample to C5 as stated: the history is not capped at 20 entries
— the cap runs only inside the pre-edit push, which steady-state commits
skip, so 20 successive committed edits from a fresh session leave 21
snapshots in the list. -/
theorem c5_counterexample_history_exceeds_cap :
    (commitList (List.range 20) (⟨[], -1, 100⟩ : HistState ℕ)).hist.length = 21 := by
  decide

/-- Witness for C5: two commits then two undos restore the concrete
pre-edit table, and redo inverts undo on a concrete mid-history state. -/
theorem c5_witness :
    (undoN 2 (commitList [5, 9] (⟨[3], 0, 3⟩ : HistState ℕ))).cur = 3 ∧
    redo (undo (⟨[3, 7], 1, 7⟩ : HistState ℕ)) = ⟨[3, 7], 1, 7⟩ :=
  ⟨(c5_history_undo_redo (α := ℕ)).1 ⟨[3], 0, 3⟩ [5, 9],
   (c5_history_undo_redo (α := ℕ)).2.2 ⟨[3, 7], 1, 7⟩ (by decide) (by decide)
     (by decide) (by decide)⟩

/-! ## C9: validation accumulates per-row messages; commit is all-or-nothing -/

theorem mem_allKinds (k : VKind) : k ∈ allKinds := by
  cases k <;> decide

theorem mem_validateRow (rid : ℕ) (r : EditedRow) (j : ℕ) (k : VKind) :
    (⟨j, k⟩ : VError) ∈ validateRow rid r ↔ (j = rid ∧ kindViolated k r = true) := by
  unfold validateRow
  constructor
  · intro h
    rcases List.mem_map.mp h with ⟨k2, hk2, heq⟩
    cases heq
    exact ⟨rfl, (List.mem_filter.mp hk2).2⟩
  · rintro ⟨rfl, hk⟩
    exact List.mem_map.mpr ⟨k, List.mem_filter.mpr ⟨mem_allKinds k, hk⟩, rfl⟩

theorem validateRow_eq_nil (rid : ℕ) (r : EditedRow) :
    validateRow rid r = [] ↔ ∀ k, kindViolated k r = false := by
  unfold validateRow
  rw [List.map_eq_nil, List.filter_eq_nil]
  constructor
  · intro h k
    have := h k (mem_allKinds k)
    revert this
    cases kindViolated k r <;> simp
  · intro h k _
    simp [h k]

theorem validateFrom_nil_iff (rows : List EditedRow) : ∀ rid,
    validateFrom rid rows = [] ↔ ∀ r ∈ rows, ∀ k, kindViolated k r = false := by
  induction rows with
  | nil => intro rid; simp [validateFrom]
  | cons r rows ih =>
    intro rid
    simp only [validateFrom, List.append_eq_nil]
    rw [ih (rid + 1), validateRow_eq_nil]
    constructor
    · rintro ⟨h1, h2⟩ r2 hr2 k
      rcases List.mem_cons.mp hr2 with h | h
      · subst h
        exact h1 k
      · exact h2 r2 h k
    · intro h
      exact ⟨h r (List.mem_cons_self _ _),
        fun r2 hr2 k => h r2 (List.mem_cons_of_mem _ hr2) k⟩

theorem mem_validateFrom (rows : List EditedRow) : ∀ (rid j : ℕ) (k : VKind),
    ((⟨j, k⟩ : VError) ∈ validateFrom rid rows) ↔
      ∃ i r, rows.get? i = some r ∧ j = rid + i ∧ kindViolated k r = true := by
  induction rows with
  | nil => intro rid j k; simp [validateFrom]
  | cons r rows ih =>
    intro rid j k
    simp only [validateFrom, List.mem_append]
    rw [mem_validateRow, ih (rid + 1) j k]
    constructor
    · rintro (⟨hj, hk⟩ | ⟨i, r2, hg, hj, hk⟩)
      · exact ⟨0, r, rfl, by omega, hk⟩
      · exact ⟨i + 1, r2, hg, by omega, hk⟩
    · rintro ⟨i, r2, hg, hj, hk⟩
      cases i with
      | zero =>
        left
        have h0 : (r :: rows).get? 0 = some r := rfl
        rw [h0] at hg
        injection hg with h2
        subst h2
        exact ⟨by omega, hk⟩
      | succ i =>
        right
        exact ⟨i, r2, hg, by omega, hk⟩

theorem rowViolatesSpec_iff (r : EditedRow) :
    rowViolatesSpec r ↔ ∃ k, kindViolated k r = true := by
  constructor
  · rintro (h | h | h | ⟨a, b, h1, h2, h3⟩ | ⟨a, b, h1, h2, h3⟩ | ⟨p, h1, h2⟩)
    · exact ⟨.emptyTask, h⟩
    · exact ⟨.emptyOwner, h⟩
    · exact ⟨.emptyStatus, h⟩
    · exact ⟨.planOrder, by simp [kindViolated, h1, h2, h3]⟩
    · exact ⟨.actualOrder, by simp [kindViolated, h1, h2, h3]⟩
    · exact ⟨.pctRange, by simp [kindViolated, h1, h2]⟩
  · rintro ⟨k, hk⟩
    cases k
    case emptyTask => exact Or.inl hk
    case emptyOwner => exact Or.inr (Or.inl hk)
    case emptyStatus => exact Or.inr (Or.inr (Or.inl hk))
    case planOrder =>
      refine Or.inr (Or.inr (Or.inr (Or.inl ?_)))
      unfold kindViolated at hk
      cases ha : r.plan_start with
      | none => rw [ha] at hk; simp at hk
      | some a =>
        cases hb : r.plan_end with
        | none => rw [ha, hb] at hk; simp at hk
        | some b =>
          rw [ha, hb] at hk
          simp only [decide_eq_true_eq] at hk
          exact ⟨a, b, rfl, rfl, hk⟩
    case actualOrder =>
      refine Or.inr (Or.inr (Or.inr (Or.inr (Or.inl ?_))))
      unfold kindViolated at hk
      cases ha : r.actual_start with
      | none => rw [ha] at hk; simp at hk
      | some a =>
        cases hb : r.actual_end with
        | none => rw [ha, hb] at hk; simp at hk
        | some b =>
          rw [ha, hb] at hk
          simp only [decide_eq_true_eq] at hk
          exact ⟨a, b, rfl, rfl, hk⟩
    case pctRange =>
      refine Or.inr (Or.inr (Or.inr (Or.inr (Or.inr ?_))))
      unfold kindViolated at hk
      cases hp : r.progress_pct with
      | none => rw [hp] at hk; simp at hk
      | some p =>
        rw [hp] at hk
        simp only [decide_eq_true_eq] at hk
        exact ⟨p, rfl, hk⟩

/-- C9: the commit is rejected (no write at all) exactly when some edited
row violates one of the spec's conditions (empty task name / owner /
status, plan or actual start after end, completion percentage outside
0–100); on rejection the session table is untouched; the error list
contains the message `⟨i+1, k⟩` exactly when condition `k` fires on row
`i`, for every row of the table; and the 10-message cap applies only to the
displayed list, not to the list used for detection. -/
theorem c9_validation_wholesale (rows table : List EditedRow) :
    (commitEdits rows = none ↔ ∃ r ∈ rows, rowViolatesSpec r) ∧
    (commitEdits rows = none → sessionAfterCommit rows table = table) ∧
    (∀ (i : ℕ) (r : EditedRow) (k : VKind), rows.get? i = some r →
      ((⟨i + 1, k⟩ : VError) ∈ validateAll rows ↔ kindViolated k r = true)) ∧
    displayedErrors rows = (validateAll rows).take 10 := by
  refine ⟨?_, ?_, ?_, rfl⟩
  · unfold commitEdits
    by_cases h : validateAll rows = []
    · rw [if_pos h]
      rw [validateAll, validateFrom_nil_iff rows 1] at h
      constructor
      · intro h2
        simp at h2
      · rintro ⟨r, hr, hv⟩
        rcases (rowViolatesSpec_iff r).mp hv with ⟨k, hk⟩
        rw [h r hr k] at hk
        simp at hk
    · rw [if_neg h]
      constructor
      · intro _
        by_contra hno
        apply h
        rw [validateAll, validateFrom_nil_iff rows 1]
        intro r hr k
        by_contra hk
        have hkt : kindViolated k r = true := by
          revert hk
          cases kindViolated k r <;> simp
        exact hno ⟨r, hr, (rowViolatesSpec_iff r).mpr ⟨k, hkt⟩⟩
      · intro _
        rfl
  · intro h
    unfold sessionAfterCommit
    rw [h]
    rfl
  · intro i r k hg
    unfold validateAll
    rw [mem_validateFrom rows 1 (i + 1) k]
    constructor
    · rintro ⟨i2, r2, hg2, hj, hk⟩
      have hi : i2 = i := by omega
      subst hi
      rw [hg] at hg2
      injection hg2 with h2
      subst h2
      exact hk
    · intro hk
      exact ⟨i, r, hg, by omega, hk⟩

/-- Witness for C9: a one-row table whose task name is absent is rejected,
and a concrete session table survives the failed commit unchanged. -/
theorem c9_witness :
    commitEdits [⟨none, some "王", some "Going", none, none, none, none, some 50⟩] =
      none ∧
    sessionAfterCommit [⟨none, some "王", some "Going", none, none, none, none, some 50⟩]
      [⟨some "原任務", some "李", some "Done", none, none, none, none, some 100⟩] =
      [⟨some "原任務", some "李", some "Done", none, none, none, none, some 100⟩] :=
  ⟨(c9_validation_wholesale
      [⟨none, some "王", some "Going", none, none, none, none, some 50⟩] []).1.mpr
    ⟨⟨none, some "王", some "Going", none, none, none, none, some 50⟩,
      List.mem_singleton.mpr rfl, Or.inl (by decide)⟩,
   (c9_validation_wholesale
      [⟨none, some "王", some "Going", none, none, none, none, some 50⟩]
      [⟨some "原任務", some "李", some "Done", none, none, none, none, some 100⟩]).2.1
    ((c9_validation_wholesale
      [⟨none, some "王", some "Going", none, none, none, none, some 50⟩]
      [⟨some "原任務", some "李", some "Done", none, none, none, none, some 100⟩]).1.mpr
    ⟨⟨none, some "王", some "Going", none, none, none, none, some 50⟩,
      List.mem_singleton.mpr rfl, Or.inl (by decide)⟩)⟩

/-! ## C10: milestone completion is rescaled per row -/

theorem processMRow_blank (st : String × String) (r : MRow) (h : mrowBlank r = true) :
    processMRow st r = (st, none) := by
  simp only [mrowBlank, decide_eq_true_eq] at h
  simp only [processMRow, if_pos h]

theorem processMRow_pct (st : String × String) (r : MRow) (h : mrowBlank r = false) :
    ∃ st1 it, processMRow st r = (st1, some it) ∧
      it.completion_pct = milestonePct r.pctCell := by
  simp only [mrowBlank, decide_eq_false_iff_not] at h
  simp only [processMRow, if_neg h]
  split
  · exact ⟨_, _, rfl, rfl⟩
  · split
    · exact ⟨_, _, rfl, rfl⟩
    · split
      · exact ⟨_, _, rfl, rfl⟩
      · split
        · exact ⟨_, _, rfl, rfl⟩
        · exact ⟨_, _, rfl, rfl⟩

theorem processFrom_pct (rows : List MRow) : ∀ st : String × String,
    (processFrom st rows).map (fun it => it.completion_pct) =
      (rows.filter (fun r => !mrowBlank r)).map (fun r => milestonePct r.pctCell) := by
  induction rows with
  | nil => intro st; rfl
  | cons r rows ih =>
    intro st
    by_cases hb : mrowBlank r = true
    · have hstep : processFrom st (r :: rows) = processFrom st rows := by
        show (match processMRow st r with
          | (st1, some it) => it :: processFrom st1 rows
          | (st1, none) => processFrom st1 rows) = _
        rw [processMRow_blank st r hb]
      rw [hstep, ih st]
      simp [List.filter_cons, hb]
    · have hb2 : mrowBlank r = false := by
        revert hb
        cases mrowBlank r <;> simp
      rcases processMRow_pct st r hb2 with ⟨st1, it, heq, hp⟩
      have hstep : processFrom st (r :: rows) = it :: processFrom st1 rows := by
        show (match processMRow st r with
          | (st1, some it) => it :: processFrom st1 rows
          | (st1, none) => processFrom st1 rows) = _
        rw [heq]
      rw [hstep, List.map_cons, hp, ih st1]
      simp [List.filter_cons, hb2]

/-- C10: every materialized milestone stores exactly the per-row rescale of
its own completion cell — `100·v` when the parsed value `v` is at most 1,
else `v` — independently of every other row (the completion column of the
produced table is the row-wise map of `milestonePct`); in particular a cell
holding exactly 1 is stored as 100, whereas the task table's whole-column
rule leaves the column `[1, 50]` (maximum above 1) untouched. -/
theorem c10_milestone_per_row_rescale :
    (∀ rows : List MRow,
      (processMilestones rows).map (fun it => it.completion_pct) =
        (rows.filter (fun r => !mrowBlank r)).map (fun r => milestonePct r.pctCell)) ∧
    milestonePct (RawCell.num 1) = 100 ∧
    normalizePct [(1:ℚ), 50] = [(1:ℚ), 50] := by
  refine ⟨fun rows => processFrom_pct rows ("", ""), ?_, ?_⟩
  · norm_num [milestonePct, safe_float]
  · unfold normalizePct
    rw [if_neg (by simp), if_neg (by norm_num [listMax])]

/-! ## C4: status inference -/

/-- C4: the implemented status rule agrees everywhere with the spec's rule —
a non-blank status cell is kept verbatim; otherwise `Done` whenever
`progress_pct ≥ 100` (even when `plan_end` is before today), else `Delay`
exactly when `plan_end` exists and is strictly before today, else `Going`;
and it is a pure function of `(status, progress_pct, plan_end, today)`. -/
theorem c4_status_inference_matches_spec (status : String) (progress_pct : Option ℚ)
    (plan_end : Option ℤ) (today : ℤ) :
    calc_status status progress_pct plan_end today =
      statusSpec status progress_pct plan_end today := by
  unfold calc_status statusSpec
  by_cases hb : pyStrip status ≠ ""
  · have hs : status ≠ "" := by
      intro h0
      apply hb
      rw [h0]
      rfl
    rw [if_pos ⟨hs, hb⟩, if_pos hb]
  · rw [if_neg (by tauto), if_neg hb]
    by_cases hp : 100 ≤ progress_pct.getD 0
    · rw [if_pos hp, if_pos hp]
    · rw [if_neg hp, if_neg hp]
      cases plan_end with
      | none => simp
      | some e =>
        by_cases he : e < today
        · simp [he]
        · simp [he]

/-! ## C8: date annotation stripping and header labels -/

/-- C8: for any underlying date parser, appending a parenthesized annotation
(whose body contains no `)`) to a text that itself contains no `(` gives the
same parse result as the bare text; each known header-label string parses to
absent; and text whose cleaned form the underlying parser rejects yields
absent rather than an error. -/
theorem c8_date_annotation_and_labels
    (parseS : String → Option ℤ) (parseQ : ℚ → Option ℤ) (s ann : String)
    (hs : ∀ c ∈ s.data, c ≠ '(') (ha : ∀ c ∈ ann.data, c ≠ ')') :
    safe_datetime parseS parseQ (RawCell.str (s ++ "(" ++ ann ++ ")")) =
      safe_datetime parseS parseQ (RawCell.str s) ∧
    (∀ L ∈ dateHeaderLabels, safe_datetime parseS parseQ (RawCell.str L) = none) ∧
    (∀ t : String, parseS (cleanDateText t) = none →
      safe_datetime parseS parseQ (RawCell.str t) = none) := by
  refine ⟨?_, ?_, ?_⟩
  · show (if cleanDateText (s ++ "(" ++ ann ++ ")") = "" ∨
          cleanDateText (s ++ "(" ++ ann ++ ")") ∈ dateHeaderLabels then none
        else parseS (cleanDateText (s ++ "(" ++ ann ++ ")"))) =
        (if cleanDateText s = "" ∨ cleanDateText s ∈ dateHeaderLabels then none
        else parseS (cleanDateText s))
    rw [cleanDateText_append_paren_span s ann hs ha]
  · intro L hL
    show (if cleanDateText L = "" ∨ cleanDateText L ∈ dateHeaderLabels then none
        else parseS (cleanDateText L)) = none
    fin_cases hL <;> rw [if_pos (by decide)]
  · intro t ht
    show (if cleanDateText t = "" ∨ cleanDateText t ∈ dateHeaderLabels then none
        else parseS (cleanDateText t)) = none
    by_cases hc : cleanDateText t = "" ∨ cleanDateText t ∈ dateHeaderLabels
    · rw [if_pos hc]
    · rw [if_neg hc]
      exact ht

/-- Witness for C8: the sample from the spec, `2026/04/01(週三)`, parses as
`2026/04/01` does, for a concrete parser defined to accept that date. -/
theorem c8_witness :
    safe_datetime
      (fun t => if t = "2026/04/01" then some 738981 else none) (fun _ => none)
      (RawCell.str ("2026/04/01" ++ "(" ++ "週三" ++ ")")) =
    safe_datetime
      (fun t => if t = "2026/04/01" then some 738981 else none) (fun _ => none)
      (RawCell.str "2026/04/01") ∧
    safe_datetime
      (fun t => if t = "2026/04/01" then some 738981 else none) (fun _ => none)
      (RawCell.str "計劃開始日期") = none :=
  ⟨(c8_date_annotation_and_labels
      (fun t => if t = "2026/04/01" then some 738981 else none) (fun _ => none)
      "2026/04/01" "週三" (by decide) (by decide)).1,
   (c8_date_annotation_and_labels
      (fun t => if t = "2026/04/01" then some 738981 else none) (fun _ => none)
      "x" "y" (by decide) (by decide)).2.1 "計劃開始日期" (by decide)⟩

end Ohtc
